import Mathlib

/-!
Verification of the donut.py renderer (`src/Donut.py`, `src/Stage.py`).

The geometry (torus sampling, rotation) is embedded over `ℝ`, with
`numpy`'s `cos`/`sin` idealized as `Real.cos`/`Real.sin`.  The rasterizer
(`Stage.project`, `Stage.luminance` and the body of `Stage.render_frame`)
is embedded generically over a linear ordered field with a floor, so that
the same definitions apply to `ℝ` and can be evaluated on `ℚ` inputs.
`numpy` parallel arrays become lists, `np.interp` becomes `interp`
(piecewise-linear with constant extrapolation, exactly numpy's semantics),
`.astype(int)` becomes `astype_int` (truncation toward zero, C semantics),
`np.argsort(oyo)[::-1]` followed by fancy-index gathering becomes a sort
of per-point records in descending `oyo` order, and the fancy assignment
`screen[zp, xp] = chars` (whose repeated-index semantics is
last-write-wins, in array order) becomes a left fold of single-pixel
writes over a screen represented as a total function `ℤ → ℤ → Char`.
-/

set_option linter.unusedSectionVars false
set_option linter.unusedVariables false

namespace DonutPy

/-- A 3-D vector, a single column of the `3 × N` numpy arrays
`Donut.points` / `Donut.normals`. -/
@[ext]
structure Vec3 (α : Type) where
  x : α
  y : α
  z : α
deriving DecidableEq

/-- A 3 × 3 matrix, row major: the rotation matrices `R` of
`Donut.rotate_x` / `Donut.rotate_y`. -/
structure Mat3 (α : Type) where
  a : α
  b : α
  c : α
  d : α
  e : α
  f : α
  g : α
  h : α
  i : α

section Geometry

variable {α : Type} [LinearOrderedField α]

/-- Matrix-vector product: one column of `R @ self.points`. -/
def matVec (m : Mat3 α) (v : Vec3 α) : Vec3 α :=
  ⟨m.a * v.x + m.b * v.y + m.c * v.z,
   m.d * v.x + m.e * v.y + m.f * v.z,
   m.g * v.x + m.h * v.y + m.i * v.z⟩

/-- Matrix product, used to state the rotation-composition law. -/
def matMul (m n : Mat3 α) : Mat3 α :=
  ⟨m.a * n.a + m.b * n.d + m.c * n.g,
   m.a * n.b + m.b * n.e + m.c * n.h,
   m.a * n.c + m.b * n.f + m.c * n.i,
   m.d * n.a + m.e * n.d + m.f * n.g,
   m.d * n.b + m.e * n.e + m.f * n.h,
   m.d * n.c + m.e * n.f + m.f * n.i,
   m.g * n.a + m.h * n.d + m.i * n.g,
   m.g * n.b + m.h * n.e + m.i * n.h,
   m.g * n.c + m.h * n.f + m.i * n.i⟩

/-- Dot product (`light @ normals`, one column). -/
def dot (u v : Vec3 α) : α := u.x * v.x + u.y * v.y + u.z * v.z

/-- Squared Euclidean norm of a vector. -/
def norm2 (v : Vec3 α) : α := v.x ^ 2 + v.y ^ 2 + v.z ^ 2

end Geometry

/-- One sampled point of the torus, from `Donut.__init__`:
`((R2 + R1*cosθ)*cosφ, (R2 + R1*cosθ)*sinφ, R1*sinθ)`. -/
noncomputable def torusPoint (R1 R2 θ φ : ℝ) : Vec3 ℝ :=
  ⟨(R2 + R1 * Real.cos θ) * Real.cos φ,
   (R2 + R1 * Real.cos θ) * Real.sin φ,
   R1 * Real.sin θ⟩

/-- One sampled surface normal, from `Donut.__init__`:
`(cosφ*cosθ, sinφ*cosθ, sinθ)`. -/
noncomputable def torusNormal (θ φ : ℝ) : Vec3 ℝ :=
  ⟨Real.cos φ * Real.cos θ, Real.sin φ * Real.cos θ, Real.sin θ⟩

/-- Rotation matrix about the x axis built in `Donut.rotate_x`. -/
noncomputable def rotXMat (A : ℝ) : Mat3 ℝ :=
  ⟨1, 0, 0,
   0, Real.cos A, -Real.sin A,
   0, Real.sin A, Real.cos A⟩

/-- Rotation matrix about the y axis built in `Donut.rotate_y`. -/
noncomputable def rotYMat (B : ℝ) : Mat3 ℝ :=
  ⟨Real.cos B, 0, Real.sin B,
   0, 1, 0,
   -Real.sin B, 0, Real.cos B⟩

/-- `Donut.rotate_x`, acting on one point (one column of `R @ points`). -/
noncomputable def rotate_x (A : ℝ) (v : Vec3 ℝ) : Vec3 ℝ := matVec (rotXMat A) v

/-- `Donut.rotate_y`, acting on one point. -/
noncomputable def rotate_y (B : ℝ) (v : Vec3 ℝ) : Vec3 ℝ := matVec (rotYMat B) v

/-- One call in a sequence of `rotate_x` / `rotate_y` method calls. -/
inductive RotCall where
  | rx : ℝ → RotCall
  | ry : ℝ → RotCall

/-- Apply one rotation call to one vector. -/
noncomputable def applyCall : RotCall → Vec3 ℝ → Vec3 ℝ
  | RotCall.rx A, v => rotate_x A v
  | RotCall.ry B, v => rotate_y B v

/-- Apply a finite sequence of rotation calls, earliest first, as repeated
in-place updates of `Donut.points` / `Donut.normals` do. -/
noncomputable def applyCalls (cs : List RotCall) (v : Vec3 ℝ) : Vec3 ℝ :=
  cs.foldl (fun w c => applyCall c w) v

section Rasterizer

variable {α : Type} [LinearOrderedField α]

/-- `Stage.project` for one point: `oyo = 1/(y - f)` (numpy
`np.reciprocal(y - f)`), `xp = (d - f) * x * oyo`, `zp = (d - f) * z * oyo`.
Returned as `(xp, zp, oyo)`. -/
def project (f d : α) (p : Vec3 α) : α × α × α :=
  ((d - f) * p.x * (p.y - f)⁻¹, (d - f) * p.z * (p.y - f)⁻¹, (p.y - f)⁻¹)

/-- `Stage.project` applied to the whole point list, returning the three
parallel sequences `(xp, zp, oyo)` exactly as the source returns three
parallel arrays. -/
def projectList (f d : α) (pts : List (Vec3 α)) : List α × List α × List α :=
  (pts.map fun p => (project f d p).1,
   pts.map fun p => (project f d p).2.1,
   pts.map fun p => (project f d p).2.2)

/-- `Stage.luminance` for one normal: `-(light @ normal)`. -/
def luminance (light n : Vec3 α) : α := -(dot light n)

/-- The palette `".,-~:;=!*#$@"` of `Stage.__init__`. -/
def illumination : List Char :=
  ['.', ',', '-', '~', ':', ';', '=', '!', '*', '#', '$', '@']

/-- `np.interp(v, (x0, x1), (y0, y1))`: linear interpolation on `[x0, x1]`
with constant extrapolation `y0` below `x0` and `y1` above `x1`. -/
def interp (x0 x1 y0 y1 v : α) : α :=
  if v ≤ x0 then y0
  else if x1 ≤ v then y1
  else y0 + (v - x0) * (y1 - y0) / (x1 - x0)

/-- `.astype(int)` on a float value: truncation toward zero. -/
def astype_int [FloorRing α] (v : α) : ℤ :=
  if v < 0 then Int.ceil v else Int.floor v

/-- The palette index of `render_frame`:
`np.interp(L, (0, 0.9*L.max()), (0, len(illumination)-1)).astype(int)`. -/
def charIndex [FloorRing α] (Lmax L : α) : ℤ :=
  astype_int (interp 0 (9 / 10 * Lmax) 0 ((illumination.length - 1 : ℕ) : α) L)

/-- The palette character selected for one point
(`self.illumination[char_index]`). -/
def charOf [FloorRing α] (Lmax L : α) : Char :=
  illumination.getD (charIndex Lmax L).toNat ' '

/-- `L.max()` of a numpy array as a list fold (the source only evaluates it
on the nonempty luminance array). -/
def listMax : List α → α
  | [] => 0
  | a :: l => l.foldl max a

/-- The estimated projected extent `I = (R2 + R1) * (f - d) / f` of
`render_frame`. -/
def Ival (R1 R2 f d : α) : α := (R2 + R1) * (f - d) / f

/-- The pixel coordinate of one projected value:
`np.interp(v, (-1.1*I, 1.1*I), (0, num_pixels - 1)).astype(int)`. -/
def pixelOf [FloorRing α] (Iv : α) (np : ℕ) (v : α) : ℤ :=
  astype_int (interp (-(11 / 10 * Iv)) (11 / 10 * Iv) 0 (((np : ℤ) - 1 : ℤ) : α) v)

/-- The per-point record that `render_frame` carries through the sort and
the screen write: pixel column (from `xp`), pixel row (from `-zp`), palette
character, and `oyo` = invDepth. -/
structure PRec (α : Type) where
  col : ℤ
  row : ℤ
  ch : Char
  oyo : α
deriving DecidableEq

/-- Build the record of one (point, normal) pair, following `render_frame`:
project, shade, and map to pixel coordinates. -/
def mkRec [FloorRing α] (f d R1 R2 : α) (np : ℕ) (light : Vec3 α) (Lmax : α)
    (pn : Vec3 α × Vec3 α) : PRec α :=
  ⟨pixelOf (Ival R1 R2 f d) np (project f d pn.1).1,
   pixelOf (Ival R1 R2 f d) np (-(project f d pn.1).2.1),
   charOf Lmax (luminance light pn.2),
   (project f d pn.1).2.2⟩

/-- The descending-`oyo` order used by `order = np.argsort(oyo)[::-1]`. -/
def oyoGe (a b : PRec α) : Prop := b.oyo ≤ a.oyo

instance : DecidableRel (oyoGe (α := α)) :=
  fun a b => inferInstanceAs (Decidable (b.oyo ≤ a.oyo))

instance : IsTotal (PRec α) oyoGe := ⟨fun a b => le_total b.oyo a.oyo⟩

instance : IsTrans (PRec α) oyoGe := ⟨fun _ _ _ hab hbc => le_trans hbc hab⟩

/-- Gathering the records by `np.argsort(oyo)[::-1]`: the record list in
descending `oyo` order (for pairwise distinct `oyo` this is exactly the
numpy order; numpy leaves tie order unspecified). -/
def sortByOyoDesc (rs : List (PRec α)) : List (PRec α) :=
  List.insertionSort oyoGe rs

/-- One element of the fancy assignment `screen[zp, xp] = chars`:
overwrite one pixel of the screen. -/
def writeRec (s : ℤ → ℤ → Char) (r : PRec α) : ℤ → ℤ → Char :=
  fun i j => if r.row = i ∧ r.col = j then r.ch else s i j

/-- The whole fancy assignment `screen[zp, xp] = chars`: repeated indices
are written in array order, so the last write wins. -/
def writeAll (s : ℤ → ℤ → Char) (rs : List (PRec α)) : ℤ → ℤ → Char :=
  rs.foldl writeRec s

/-- `np.full((num_pixels, num_pixels), " ")`: the blank screen. -/
def blankScreen : ℤ → ℤ → Char := fun _ _ => ' '

/-- The character left at pixel `(i, j)` by a sequence of record writes
starting from background character `c` (specification of `writeAll` at one
pixel). -/
def lastCh (i j : ℤ) : Char → List (PRec α) → Char
  | c, [] => c
  | c, r :: t => lastCh i j (if r.row = i ∧ r.col = j then r.ch else c) t

/-- The screen produced by the body of `Stage.render_frame` after the
rotation step, from the (already rotated) points and normals: clear the
screen, project, shade, map to pixels, sort by descending `oyo`, and write
`screen[zp, xp] = chars`. -/
def rasterize [FloorRing α] (f d R1 R2 : α) (np : ℕ) (light : Vec3 α)
    (pns : List (Vec3 α × Vec3 α)) : ℤ → ℤ → Char :=
  writeAll blankScreen
    (sortByOyoDesc
      (pns.map (mkRec f d R1 R2 np light
        (listMax (pns.map fun pn => luminance light pn.2)))))

end Rasterizer

/-- The state of a `Donut` object: radii and the point / normal arrays. -/
structure Donut (α : Type) where
  R1 : α
  R2 : α
  points : List (Vec3 α)
  normals : List (Vec3 α)

/-- The state of a `Stage` object. -/
structure Stage (α : Type) where
  dona : Donut α
  light : Vec3 α
  f : α
  d : α
  num_pixels : ℕ
  screen : ℤ → ℤ → Char

section StageMethods

variable {α : Type} [LinearOrderedField α]

/-- `Stage.__init__`: `assert f > d > dona.R1 + dona.R2 > 0` (construction
fails — `none` — when the chained comparison is false), then store the
configuration and the blank `num_pixels × num_pixels` screen. -/
def Stage.init (dona : Donut α) (light : Vec3 α) (f d : α) (np : ℕ) :
    Option (Stage α) :=
  if f > d ∧ d > dona.R1 + dona.R2 ∧ dona.R1 + dona.R2 > 0 then
    some ⟨dona, light, f, d, np, blankScreen⟩
  else none

/-- The `Stage.project` method as a state transformer: the method body
computes `xp, zp, oyo` from `self.dona.points` with fresh numpy arrays and
contains no assignment to any attribute, so the post-state is the
pre-state. -/
def Stage.projectM (s : Stage α) : (List α × List α × List α) × Stage α :=
  (projectList s.f s.d s.dona.points, s)

/-- The `Stage.luminance` method as a state transformer: it returns
`-(self.light @ self.dona.normals)` and contains no attribute assignment. -/
def Stage.luminanceM (s : Stage α) : List α × Stage α :=
  (s.dona.normals.map (luminance s.light), s)

end StageMethods

/-- `Stage.render_frame` as a state transformer on `ℝ`: reset the screen,
rotate the donut in place (x then y), then rasterize the rotated points
and normals. -/
noncomputable def Stage.render_frameM (s : Stage ℝ) (A B : ℝ) : Stage ℝ :=
  let pts := (s.dona.points.map (rotate_x A)).map (rotate_y B)
  let nms := (s.dona.normals.map (rotate_x A)).map (rotate_y B)
  { s with
    dona := ⟨s.dona.R1, s.dona.R2, pts, nms⟩
    screen := rasterize s.f s.d s.dona.R1 s.dona.R2 s.num_pixels s.light
      (pts.zip nms) }

/-! ### Helper lemmas about the write step and the sort -/

section WriteLemmas

variable {α : Type} [LinearOrderedField α]

theorem writeAll_eq_lastCh (i j : ℤ) (rs : List (PRec α)) (s : ℤ → ℤ → Char) :
    writeAll s rs i j = lastCh i j (s i j) rs := by
  induction rs generalizing s with
  | nil => rfl
  | cons r t ih =>
    show writeAll (writeRec s r) t i j = _
    rw [ih]
    rfl

theorem lastCh_of_no_hit (i j : ℤ) (rs : List (PRec α))
    (h : ∀ r ∈ rs, ¬(r.row = i ∧ r.col = j)) (c : Char) : lastCh i j c rs = c := by
  induction rs generalizing c with
  | nil => rfl
  | cons r t ih =>
    show lastCh i j (if r.row = i ∧ r.col = j then r.ch else c) t = c
    rw [if_neg (h r (List.mem_cons_self r t))]
    exact ih (fun r' hr' => h r' (List.mem_cons_of_mem _ hr')) c

theorem lastCh_sorted (i j : ℤ) (r0 : PRec α) (hhit : r0.row = i ∧ r0.col = j)
    (rs : List (PRec α)) :
    List.Sorted oyoGe rs → r0 ∈ rs →
    (∀ r ∈ rs, r.row = i ∧ r.col = j → r ≠ r0 → r0.oyo < r.oyo) →
    ∀ c, lastCh i j c rs = r0.ch := by
  induction rs with
  | nil => intro _ hr0 _ _; exact absurd hr0 (List.not_mem_nil r0)
  | cons r t ih =>
    intro hs hr0 hmin c
    rw [List.sorted_cons] at hs
    show lastCh i j (if r.row = i ∧ r.col = j then r.ch else c) t = r0.ch
    by_cases hmem : r0 ∈ t
    · exact ih hs.2 hmem (fun r' h' => hmin r' (List.mem_cons_of_mem _ h')) _
    · have hr : r0 = r := by
        rcases List.mem_cons.mp hr0 with h | h
        · exact h
        · exact absurd h hmem
      subst hr
      rw [if_pos hhit]
      refine lastCh_of_no_hit i j t (fun r' hr' hh => ?_) r0.ch
      have hne : r' ≠ r0 := fun he => hmem (he ▸ hr')
      have h1 := hmin r' (List.mem_cons_of_mem _ hr') hh hne
      exact absurd h1 (not_lt.mpr (hs.1 r' hr'))

theorem sortByOyoDesc_sorted (rs : List (PRec α)) :
    List.Sorted oyoGe (sortByOyoDesc rs) :=
  List.sorted_insertionSort oyoGe rs

theorem sortByOyoDesc_perm (rs : List (PRec α)) :
    List.Perm (sortByOyoDesc rs) rs :=
  List.perm_insertionSort oyoGe rs

/-- Core occlusion fact: if one record of the frame hits pixel `(i, j)` and
every other record hitting that pixel has strictly larger `oyo`, then the
frame leaves that record's character at the pixel. -/
theorem rasterize_eq_of_min [FloorRing α]
    (f d R1 R2 : α) (np : ℕ) (light : Vec3 α)
    (pns : List (Vec3 α × Vec3 α)) (Lm : α)
    (hL : Lm = listMax (pns.map fun pn => luminance light pn.2))
    (i j : ℤ) (r0 : PRec α)
    (hr0 : r0 ∈ pns.map (mkRec f d R1 R2 np light Lm))
    (hhit : r0.row = i ∧ r0.col = j)
    (hmin : ∀ r ∈ pns.map (mkRec f d R1 R2 np light Lm),
      r.row = i ∧ r.col = j → r ≠ r0 → r0.oyo < r.oyo) :
    rasterize f d R1 R2 np light pns i j = r0.ch := by
  subst hL
  unfold rasterize
  rw [writeAll_eq_lastCh]
  refine lastCh_sorted i j r0 hhit _ (sortByOyoDesc_sorted _)
    ((sortByOyoDesc_perm _).mem_iff.mpr hr0) ?_ _
  intro r hr
  exact hmin r ((sortByOyoDesc_perm _).mem_iff.mp hr)

end WriteLemmas

/-! ### Helper lemmas about `interp`, truncation, and the shading map -/

section InterpLemmas

variable {α : Type} [LinearOrderedField α]

theorem interp_left (x0 x1 y0 y1 v : α) (h : v ≤ x0) :
    interp x0 x1 y0 y1 v = y0 := if_pos h

theorem interp_right (x0 x1 y0 y1 v : α) (h0 : x0 < v) (h1 : x1 ≤ v) :
    interp x0 x1 y0 y1 v = y1 := by
  rw [interp, if_neg (not_le.mpr h0), if_pos h1]

theorem interp_mid (x0 x1 y0 y1 v : α) (h0 : x0 < v) (h1 : v < x1) :
    interp x0 x1 y0 y1 v = y0 + (v - x0) * (y1 - y0) / (x1 - x0) := by
  rw [interp, if_neg (not_le.mpr h0), if_neg (not_le.mpr h1)]

theorem interp_bounds (x0 x1 y0 y1 v : α) (hx : x0 < x1) (hy : y0 ≤ y1) :
    y0 ≤ interp x0 x1 y0 y1 v ∧ interp x0 x1 y0 y1 v ≤ y1 := by
  rw [interp]
  split_ifs with h1 h2
  · exact ⟨le_refl _, hy⟩
  · exact ⟨hy, le_refl _⟩
  · push_neg at h1 h2
    have hd : (0 : α) < x1 - x0 := sub_pos.mpr hx
    constructor
    · have h5 : 0 ≤ (v - x0) * (y1 - y0) / (x1 - x0) :=
        div_nonneg (mul_nonneg (by linarith) (by linarith)) (le_of_lt hd)
      linarith
    · have h4 : (v - x0) * (y1 - y0) / (x1 - x0) ≤ y1 - y0 := by
        rw [div_le_iff₀ hd]
        nlinarith [mul_nonneg (sub_nonneg.mpr hy) (sub_nonneg.mpr (le_of_lt h2))]
      linarith

theorem astype_int_of_nonneg [FloorRing α] (v : α) (h : 0 ≤ v) :
    astype_int v = Int.floor v := if_neg (not_lt.mpr h)

theorem astype_int_bounds [FloorRing α] (v : α) (m : ℤ) (h0 : 0 ≤ v)
    (h1 : v ≤ (m : α)) : 0 ≤ astype_int v ∧ astype_int v ≤ m := by
  rw [astype_int_of_nonneg v h0]
  exact ⟨Int.floor_nonneg.mpr h0, by simpa using Int.floor_le_floor h1⟩

theorem pixelOf_bounds [FloorRing α] (Iv : α) (np : ℕ) (v : α)
    (hIv : 0 < Iv) (hnp : 1 ≤ np) :
    0 ≤ pixelOf Iv np v ∧ pixelOf Iv np v ≤ (np : ℤ) - 1 := by
  have hx : -(11 / 10 * Iv) < 11 / 10 * Iv := by nlinarith
  have hy : (0 : α) ≤ (((np : ℤ) - 1 : ℤ) : α) := by
    have h1 : (0 : ℤ) ≤ (np : ℤ) - 1 := by
      have := hnp
      omega
    exact_mod_cast h1
  obtain ⟨hb1, hb2⟩ :=
    interp_bounds (-(11 / 10 * Iv)) (11 / 10 * Iv) 0 (((np : ℤ) - 1 : ℤ) : α) v hx hy
  exact astype_int_bounds _ _ hb1 hb2

theorem charIndex_bounds [FloorRing α] (Lmax L : α) :
    0 ≤ charIndex Lmax L ∧ charIndex Lmax L ≤ 11 := by
  have hb : 0 ≤ interp 0 (9 / 10 * Lmax) 0 ((illumination.length - 1 : ℕ) : α) L ∧
      interp 0 (9 / 10 * Lmax) 0 ((illumination.length - 1 : ℕ) : α) L ≤ ((11 : ℤ) : α) := by
    have hlen : ((illumination.length - 1 : ℕ) : α) = ((11 : ℤ) : α) := by
      norm_num [illumination]
    rw [hlen]
    by_cases h1 : L ≤ 0
    · rw [interp_left _ _ _ _ _ h1]
      norm_num
    · push_neg at h1
      by_cases h2 : 9 / 10 * Lmax ≤ L
      · rw [interp_right _ _ _ _ _ h1 h2]
        norm_num
      · push_neg at h2
        exact interp_bounds _ _ _ _ _ (lt_trans h1 h2) (by norm_num)
  exact astype_int_bounds _ 11 hb.1 hb.2

theorem charIndex_of_nonpos [FloorRing α] (Lmax L : α) (h : L ≤ 0) :
    charIndex Lmax L = 0 := by
  rw [charIndex, interp_left _ _ _ _ _ h]
  simp [astype_int]

theorem charOf_of_nonpos [FloorRing α] (Lmax L : α) (h : L ≤ 0) :
    charOf Lmax L = '.' := by
  rw [charOf, charIndex_of_nonpos _ _ h]
  rfl

theorem charIndex_of_top [FloorRing α] (Lmax L : α) (hLm : 0 < Lmax)
    (h : 9 / 10 * Lmax ≤ L) : charIndex Lmax L = 11 := by
  have h0 : (0 : α) < L := lt_of_lt_of_le (by nlinarith) h
  have hlen : ((illumination.length - 1 : ℕ) : α) = ((11 : ℤ) : α) := by
    norm_num [illumination]
  rw [charIndex, interp_right _ _ _ _ _ h0 h, hlen,
    astype_int_of_nonneg _ (by norm_num), Int.floor_intCast]

theorem charOf_of_top [FloorRing α] (Lmax L : α) (hLm : 0 < Lmax)
    (h : 9 / 10 * Lmax ≤ L) : charOf Lmax L = '@' := by
  rw [charOf, charIndex_of_top _ _ hLm h]
  rfl

theorem charOf_mem [FloorRing α] (Lmax L : α) : charOf Lmax L ∈ illumination := by
  obtain ⟨h0, h1⟩ := charIndex_bounds Lmax L
  rw [charOf]
  set n := charIndex Lmax L with hn
  interval_cases n <;> decide

/-- Nearer points (larger `y`, still in front of the observer plane) have
strictly smaller `oyo = 1/(y - f)`. -/
theorem oyo_strict (f y1 y2 : α) (h1 : y1 < f) (h2 : y2 < f) (h : y1 < y2) :
    (y2 - f)⁻¹ < (y1 - f)⁻¹ := by
  have ha : y1 - f < 0 := sub_neg.mpr h1
  have hb : y2 - f < 0 := sub_neg.mpr h2
  have key : (0 : α) < (y1 - f)⁻¹ - (y2 - f)⁻¹ := by
    rw [inv_sub_inv ha.ne hb.ne]
    exact div_pos (by linarith) (mul_pos_of_neg_of_neg ha hb)
  linarith

end InterpLemmas

/-! ### Helper lemmas about the geometry -/

section GeometryLemmas

theorem norm2_rotate_x (A : ℝ) (v : Vec3 ℝ) : norm2 (rotate_x A v) = norm2 v := by
  simp only [rotate_x, matVec, rotXMat, norm2]
  linear_combination (v.y ^ 2 + v.z ^ 2) * Real.sin_sq_add_cos_sq A

theorem norm2_rotate_y (B : ℝ) (v : Vec3 ℝ) : norm2 (rotate_y B v) = norm2 v := by
  simp only [rotate_y, matVec, rotYMat, norm2]
  linear_combination (v.x ^ 2 + v.z ^ 2) * Real.sin_sq_add_cos_sq B

theorem norm2_applyCall (c : RotCall) (v : Vec3 ℝ) :
    norm2 (applyCall c v) = norm2 v := by
  cases c with
  | rx A => exact norm2_rotate_x A v
  | ry B => exact norm2_rotate_y B v

theorem norm2_applyCalls (cs : List RotCall) (v : Vec3 ℝ) :
    norm2 (applyCalls cs v) = norm2 v := by
  induction cs generalizing v with
  | nil => rfl
  | cons c t ih =>
    show norm2 (applyCalls t (applyCall c v)) = norm2 v
    rw [ih, norm2_applyCall]

theorem norm2_torusPoint (R1 R2 θ φ : ℝ) :
    norm2 (torusPoint R1 R2 θ φ) = R2 ^ 2 + 2 * R1 * R2 * Real.cos θ + R1 ^ 2 := by
  simp only [torusPoint, norm2]
  linear_combination (R2 + R1 * Real.cos θ) ^ 2 * Real.sin_sq_add_cos_sq φ +
    R1 ^ 2 * Real.sin_sq_add_cos_sq θ

theorem norm2_torusNormal (θ φ : ℝ) : norm2 (torusNormal θ φ) = 1 := by
  simp only [torusNormal, norm2]
  linear_combination Real.cos θ ^ 2 * Real.sin_sq_add_cos_sq φ +
    Real.sin_sq_add_cos_sq θ

end GeometryLemmas

/-! ### Claim theorems -/

/-- Claim C1 (counterexample to the claim as stated): under the valid
configuration `f = 10, d = 5, R1 = 1, R2 = 2, num_pixels = 8`, the two
points `(0,0,0)` and `(0,1,0)` both map to pixel `(3,3)` with different
invDepth values; the first has the larger invDepth (`-1/10 > -1/9`) and
palette character `'@'`, yet after the frame's write step the screen
character at that pixel is `'.'` — the character of the other, smaller
invDepth (nearer), point — so the claim's "larger invDepth" is false. -/
theorem depth_order_larger_cex :
    (mkRec (10 : ℚ) 5 1 2 8 ⟨0, -1, -1⟩ 1 (⟨0, 0, 0⟩, ⟨0, 0, 1⟩)).row = 3 ∧
    (mkRec (10 : ℚ) 5 1 2 8 ⟨0, -1, -1⟩ 1 (⟨0, 0, 0⟩, ⟨0, 0, 1⟩)).col = 3 ∧
    (mkRec (10 : ℚ) 5 1 2 8 ⟨0, -1, -1⟩ 1 (⟨0, 1, 0⟩, ⟨0, -1, 0⟩)).row = 3 ∧
    (mkRec (10 : ℚ) 5 1 2 8 ⟨0, -1, -1⟩ 1 (⟨0, 1, 0⟩, ⟨0, -1, 0⟩)).col = 3 ∧
    (1 : ℚ) = listMax ([((⟨0, 0, 0⟩ : Vec3 ℚ), (⟨0, 0, 1⟩ : Vec3 ℚ)),
      (⟨0, 1, 0⟩, ⟨0, -1, 0⟩)].map fun pn => luminance ⟨0, -1, -1⟩ pn.2) ∧
    (mkRec (10 : ℚ) 5 1 2 8 ⟨0, -1, -1⟩ 1 (⟨0, 1, 0⟩, ⟨0, -1, 0⟩)).oyo <
      (mkRec (10 : ℚ) 5 1 2 8 ⟨0, -1, -1⟩ 1 (⟨0, 0, 0⟩, ⟨0, 0, 1⟩)).oyo ∧
    (mkRec (10 : ℚ) 5 1 2 8 ⟨0, -1, -1⟩ 1 (⟨0, 0, 0⟩, ⟨0, 0, 1⟩)).ch = '@' ∧
    rasterize (10 : ℚ) 5 1 2 8 ⟨0, -1, -1⟩
      [(⟨0, 0, 0⟩, ⟨0, 0, 1⟩), (⟨0, 1, 0⟩, ⟨0, -1, 0⟩)] 3 3 = '.' ∧
    ('.' : Char) ≠ '@' := by with_unfolding_all decide

/-- Claim C1 (amended): if exactly two points of the frame map to a given
screen pixel and they have different invDepth values, then after the
frame's write step the screen character at that pixel equals the palette
character of the point with the SMALLER invDepth (the nearer point),
regardless of the points' order in the point array. -/
theorem depth_order_smaller_invDepth {α : Type} [LinearOrderedField α] [FloorRing α]
    (f d R1 R2 : α) (np : ℕ) (light : Vec3 α) (pns : List (Vec3 α × Vec3 α))
    (Lm : α) (hL : Lm = listMax (pns.map fun pn => luminance light pn.2))
    (i j : ℤ) (e1 e2 : Vec3 α × Vec3 α) (he1 : e1 ∈ pns) (he2 : e2 ∈ pns)
    (h1r : (mkRec f d R1 R2 np light Lm e1).row = i)
    (h1c : (mkRec f d R1 R2 np light Lm e1).col = j)
    (h2r : (mkRec f d R1 R2 np light Lm e2).row = i)
    (h2c : (mkRec f d R1 R2 np light Lm e2).col = j)
    (hoyo : (mkRec f d R1 R2 np light Lm e1).oyo < (mkRec f d R1 R2 np light Lm e2).oyo)
    (honly : ∀ q ∈ pns, (mkRec f d R1 R2 np light Lm q).row = i →
      (mkRec f d R1 R2 np light Lm q).col = j → q = e1 ∨ q = e2) :
    rasterize f d R1 R2 np light pns i j = (mkRec f d R1 R2 np light Lm e1).ch := by
  refine rasterize_eq_of_min f d R1 R2 np light pns Lm hL i j _
    (List.mem_map_of_mem _ he1) ⟨h1r, h1c⟩ ?_
  intro r hr hh hne
  obtain ⟨q, hq, rfl⟩ := List.mem_map.mp hr
  rcases honly q hq hh.1 hh.2 with h | h
  · exact absurd (congrArg (mkRec f d R1 R2 np light Lm) h) hne
  · rw [h]
    exact hoyo

/-- Claim C1 witness: the amended depth-ordering theorem applied to the
concrete two-point frame of the counterexample. -/
theorem depth_order_smaller_invDepth_witness :
    rasterize (10 : ℚ) 5 1 2 8 ⟨0, -1, -1⟩
      [(⟨0, 0, 0⟩, ⟨0, 0, 1⟩), (⟨0, 1, 0⟩, ⟨0, -1, 0⟩)] 3 3 =
      (mkRec (10 : ℚ) 5 1 2 8 ⟨0, -1, -1⟩ 1 (⟨0, 1, 0⟩, ⟨0, -1, 0⟩)).ch ∧
    (mkRec (10 : ℚ) 5 1 2 8 ⟨0, -1, -1⟩ 1 (⟨0, 1, 0⟩, ⟨0, -1, 0⟩)).ch = '.' :=
  ⟨depth_order_smaller_invDepth (10 : ℚ) 5 1 2 8 ⟨0, -1, -1⟩
      [(⟨0, 0, 0⟩, ⟨0, 0, 1⟩), (⟨0, 1, 0⟩, ⟨0, -1, 0⟩)] 1 (by with_unfolding_all decide) 3 3
      (⟨0, 1, 0⟩, ⟨0, -1, 0⟩) (⟨0, 0, 0⟩, ⟨0, 0, 1⟩)
      (by with_unfolding_all decide) (by with_unfolding_all decide) (by with_unfolding_all decide) (by with_unfolding_all decide) (by with_unfolding_all decide) (by with_unfolding_all decide)
      (by with_unfolding_all decide) (by with_unfolding_all decide),
   by with_unfolding_all decide⟩

/-- Claim C2: with every point in front of the observer plane (`y < f`),
larger `y` (nearer the observer) means strictly smaller
`invDepth = 1/(y-f)`; consequently the descending-invDepth sort writes
points farthest-to-nearest, later (nearer) writes overwrite earlier
(farther) ones, and the final character at a written pixel is that of the
point with the largest `y` among the points (with pairwise distinct `y`)
mapping to that pixel. -/
theorem painter_algorithm_correct {α : Type} [LinearOrderedField α] [FloorRing α]
    (f d R1 R2 : α) (np : ℕ) (light : Vec3 α) (pns : List (Vec3 α × Vec3 α))
    (Lm : α) (hL : Lm = listMax (pns.map fun pn => luminance light pn.2))
    (i j : ℤ) (e : Vec3 α × Vec3 α) (he : e ∈ pns)
    (hyf : ∀ q ∈ pns, q.1.y < f)
    (hrow : (mkRec f d R1 R2 np light Lm e).row = i)
    (hcol : (mkRec f d R1 R2 np light Lm e).col = j)
    (hmax : ∀ q ∈ pns, (mkRec f d R1 R2 np light Lm q).row = i →
      (mkRec f d R1 R2 np light Lm q).col = j → q ≠ e → q.1.y < e.1.y) :
    (∀ p q : Vec3 α, p.y < f → q.y < f → q.y < p.y →
      (project f d p).2.2 < (project f d q).2.2) ∧
    rasterize f d R1 R2 np light pns i j = (mkRec f d R1 R2 np light Lm e).ch := by
  constructor
  · intro p q hp hq hlt
    exact oyo_strict f q.y p.y hq hp hlt
  · refine rasterize_eq_of_min f d R1 R2 np light pns Lm hL i j _
      (List.mem_map_of_mem _ he) ⟨hrow, hcol⟩ ?_
    intro r hr hh hne
    obtain ⟨q, hq, rfl⟩ := List.mem_map.mp hr
    have hqe : q ≠ e := fun h => hne (by rw [h])
    have hy := hmax q hq hh.1 hh.2 hqe
    exact oyo_strict f q.1.y e.1.y (hyf q hq) (hyf e he) hy

/-- Claim C2 witness: the painter's-algorithm theorem applied to the
concrete two-point frame, where the larger-`y` point `(0,1,0)` wins the
pixel with its character `'.'`. -/
theorem painter_algorithm_correct_witness :
    (∀ p q : Vec3 ℚ, p.y < 10 → q.y < 10 → q.y < p.y →
      (project (10 : ℚ) 5 p).2.2 < (project (10 : ℚ) 5 q).2.2) ∧
    rasterize (10 : ℚ) 5 1 2 8 ⟨0, -1, -1⟩
      [(⟨0, 0, 0⟩, ⟨0, 0, 1⟩), (⟨0, 1, 0⟩, ⟨0, -1, 0⟩)] 3 3 =
      (mkRec (10 : ℚ) 5 1 2 8 ⟨0, -1, -1⟩ 1 (⟨0, 1, 0⟩, ⟨0, -1, 0⟩)).ch :=
  painter_algorithm_correct (10 : ℚ) 5 1 2 8 ⟨0, -1, -1⟩
    [(⟨0, 0, 0⟩, ⟨0, 0, 1⟩), (⟨0, 1, 0⟩, ⟨0, -1, 0⟩)] 1 (by with_unfolding_all decide) 3 3
    (⟨0, 1, 0⟩, ⟨0, -1, 0⟩) (by with_unfolding_all decide) (by with_unfolding_all decide) (by with_unfolding_all decide) (by with_unfolding_all decide)
    (by with_unfolding_all decide)

/-- Claim C6 (counterexample to the claim as stated): under the valid
configuration `f = 10, d = 5, R1 = 1, R2 = 2, num_pixels = 8`, the point
`(100, 0, 0)` projects to `xp = 50`, far outside the estimated range
`[-1.1·I, 1.1·I] = [-1.65, 1.65]`, yet its computed pixel column is `7`,
inside `[0, num_pixels - 1]`: `np.interp`'s constant extrapolation
implicitly clamps, so no out-of-range index arises. -/
theorem pixel_mapping_clamps_cex :
    ((10 : ℚ) > 5 ∧ (5 : ℚ) > 1 + 2 ∧ (1 : ℚ) + 2 > 0) ∧
    (project (10 : ℚ) 5 ⟨100, 0, 0⟩).1 > 11 / 10 * Ival 1 2 10 5 ∧
    (mkRec (10 : ℚ) 5 1 2 8 ⟨0, -1, -1⟩ 1 (⟨100, 0, 0⟩, ⟨0, 0, 1⟩)).col = 7 ∧
    ¬((mkRec (10 : ℚ) 5 1 2 8 ⟨0, -1, -1⟩ 1 (⟨100, 0, 0⟩, ⟨0, 0, 1⟩)).col < 0 ∨
      ((8 : ℕ) : ℤ) - 1 <
        (mkRec (10 : ℚ) 5 1 2 8 ⟨0, -1, -1⟩ 1 (⟨100, 0, 0⟩, ⟨0, 0, 1⟩)).col) := by
  with_unfolding_all decide

/-- Claim C6 (amended): for every valid configuration (`R1, R2 > 0`,
`0 < d < f`, `num_pixels ≥ 1`) and every point — including points whose
projection lies outside the estimated range — the computed pixel row and
column lie in `[0, num_pixels - 1]`, because `np.interp` clamps to its
endpoint values; the screen indexing is therefore always in bounds. -/
theorem pixel_mapping_in_bounds {α : Type} [LinearOrderedField α] [FloorRing α]
    (f d R1 R2 : α) (np : ℕ) (light : Vec3 α) (Lm : α)
    (hR1 : 0 < R1) (hR2 : 0 < R2) (hd : 0 < d) (hdf : d < f) (hnp : 1 ≤ np)
    (pn : Vec3 α × Vec3 α) :
    (0 ≤ (mkRec f d R1 R2 np light Lm pn).col ∧
      (mkRec f d R1 R2 np light Lm pn).col ≤ (np : ℤ) - 1) ∧
    (0 ≤ (mkRec f d R1 R2 np light Lm pn).row ∧
      (mkRec f d R1 R2 np light Lm pn).row ≤ (np : ℤ) - 1) := by
  have hIv : 0 < Ival R1 R2 f d := by
    rw [Ival]
    exact div_pos (mul_pos (by linarith) (by linarith)) (by linarith)
  exact ⟨pixelOf_bounds _ np _ hIv hnp, pixelOf_bounds _ np _ hIv hnp⟩

/-- Claim C6 witness: bounds for the concrete far-outside point of the
counterexample, via the amended theorem. -/
theorem pixel_mapping_in_bounds_witness :
    (0 ≤ (mkRec (10 : ℚ) 5 1 2 8 ⟨0, -1, -1⟩ 1 (⟨100, 0, 0⟩, ⟨0, 0, 1⟩)).col ∧
      (mkRec (10 : ℚ) 5 1 2 8 ⟨0, -1, -1⟩ 1 (⟨100, 0, 0⟩, ⟨0, 0, 1⟩)).col ≤
        ((8 : ℕ) : ℤ) - 1) ∧
    (0 ≤ (mkRec (10 : ℚ) 5 1 2 8 ⟨0, -1, -1⟩ 1 (⟨100, 0, 0⟩, ⟨0, 0, 1⟩)).row ∧
      (mkRec (10 : ℚ) 5 1 2 8 ⟨0, -1, -1⟩ 1 (⟨100, 0, 0⟩, ⟨0, 0, 1⟩)).row ≤
        ((8 : ℕ) : ℤ) - 1) :=
  pixel_mapping_in_bounds (10 : ℚ) 5 1 2 8 ⟨0, -1, -1⟩ 1 (by norm_num)
    (by norm_num) (by norm_num) (by norm_num) (by norm_num) (⟨100, 0, 0⟩, ⟨0, 0, 1⟩)

/-- Claim C7: with a positive luminance maximum, the luminance-to-palette
map sends `L ≤ 0` to index 0 and character `'.'`, `L ≥ 0.9·max(L)` to
index 11 and character `'@'`, is the truncated linear map
`int(L·11/(0.9·max L))` strictly inside the range, and always produces an
index in `[0, 11]` and one of the 12 palette characters. -/
theorem luminance_palette_map {α : Type} [LinearOrderedField α] [FloorRing α]
    (Lmax L : α) (hLm : 0 < Lmax) :
    (L ≤ 0 → charIndex Lmax L = 0 ∧ charOf Lmax L = '.') ∧
    (9 / 10 * Lmax ≤ L → charIndex Lmax L = 11 ∧ charOf Lmax L = '@') ∧
    (0 < L → L < 9 / 10 * Lmax →
      charIndex Lmax L =
        astype_int (L * ((illumination.length - 1 : ℕ) : α) / (9 / 10 * Lmax))) ∧
    (0 ≤ charIndex Lmax L ∧ charIndex Lmax L ≤ 11) ∧
    charOf Lmax L ∈ illumination := by
  refine ⟨fun h => ⟨charIndex_of_nonpos _ _ h, charOf_of_nonpos _ _ h⟩,
    fun h => ⟨charIndex_of_top _ _ hLm h, charOf_of_top _ _ hLm h⟩,
    fun h0 h1 => ?_, charIndex_bounds _ _, charOf_mem _ _⟩
  rw [charIndex, interp_mid _ _ _ _ _ h0 h1]
  congr 1
  ring

/-- Claim C7 witness: the palette map at `Lmax = 1` sends `L = -1` to `'.'`
and `L = 1` to `'@'`. -/
theorem luminance_palette_map_witness :
    (0 : ℚ) < 1 ∧ charOf (1 : ℚ) (-1) = '.' ∧ charOf (1 : ℚ) 1 = '@' :=
  ⟨by norm_num, ((luminance_palette_map (1 : ℚ) (-1) (by norm_num)).1 (by norm_num)).2,
   ((luminance_palette_map (1 : ℚ) 1 (by norm_num)).2.1 (by norm_num)).2⟩

/-- Claim C3: under the construction invariant `f > d > R1 + R2 > 0`, every
torus point, after any finite sequence of `rotate_x` / `rotate_y` calls
with arbitrary real angles, has `y ≠ f` (rotation preserves the distance
from the origin and every initial point has norm at most `R1 + R2 < f`),
so the reciprocal `1/(y - f)` computed in `project` is well defined and
strictly negative. -/
theorem projection_denominator_safe (R1 R2 d f : ℝ)
    (hR1 : 0 < R1) (hR2 : 0 < R2) (hd : R1 + R2 < d) (hf : d < f)
    (θ φ : ℝ) (cs : List RotCall) :
    (applyCalls cs (torusPoint R1 R2 θ φ)).y ≠ f ∧
    (project f d (applyCalls cs (torusPoint R1 R2 θ φ))).2.2 < 0 := by
  set p := applyCalls cs (torusPoint R1 R2 θ φ) with hp
  have hn : norm2 p = R2 ^ 2 + 2 * R1 * R2 * Real.cos θ + R1 ^ 2 := by
    rw [hp, norm2_applyCalls, norm2_torusPoint]
  have hb : p.x ^ 2 + p.y ^ 2 + p.z ^ 2 ≤ (R1 + R2) ^ 2 := by
    have h1 : norm2 p ≤ (R1 + R2) ^ 2 := by
      rw [hn]
      nlinarith [mul_nonneg (mul_pos hR1 hR2).le (sub_nonneg.mpr (Real.cos_le_one θ))]
    simpa [norm2] using h1
  have hyf : p.y < f := by
    by_contra hcon
    push_neg at hcon
    have h2 : 0 < p.y - (R1 + R2) := by linarith
    have h3 : 0 < p.y + (R1 + R2) := by linarith
    nlinarith [mul_pos h2 h3, sq_nonneg p.x, sq_nonneg p.z]
  refine ⟨ne_of_lt hyf, ?_⟩
  show (p.y - f)⁻¹ < 0
  exact inv_lt_zero.mpr (sub_neg.mpr hyf)

/-- Claim C3 witness: the no-division-by-zero theorem at the concrete
configuration `R1 = 1, R2 = 2, d = 5, f = 10`, sample `θ = φ = 0`, empty
rotation sequence. -/
theorem projection_denominator_safe_witness :
    (applyCalls [] (torusPoint 1 2 0 0)).y ≠ 10 ∧
    (project (10 : ℝ) 5 (applyCalls [] (torusPoint 1 2 0 0))).2.2 < 0 :=
  projection_denominator_safe 1 2 5 10 (by norm_num) (by norm_num)
    (by norm_num) (by norm_num) 0 0 []

/-- Claim C4: `project` returns `xp = (d-f)·x/(y-f)`, `zp = (d-f)·z/(y-f)`
and `invDepth = 1/(y-f)` as three parallel sequences index-aligned with
the point order, and under the invariant (points bounded by `R1 + R2`,
`f > d > R1 + R2 > 0`) every `invDepth` entry is strictly negative. -/
theorem project_formulas {α : Type} [LinearOrderedField α]
    (f d R1 R2 : α) (pts : List (Vec3 α))
    (hb : ∀ p ∈ pts, |p.y| ≤ R1 + R2) (h0 : 0 < R1 + R2)
    (hd : R1 + R2 < d) (hf : d < f) :
    (projectList f d pts).1 = pts.map (fun p => (d - f) * p.x / (p.y - f)) ∧
    (projectList f d pts).2.1 = pts.map (fun p => (d - f) * p.z / (p.y - f)) ∧
    (projectList f d pts).2.2 = pts.map (fun p => 1 / (p.y - f)) ∧
    (projectList f d pts).1.length = pts.length ∧
    (projectList f d pts).2.1.length = pts.length ∧
    (projectList f d pts).2.2.length = pts.length ∧
    ∀ o ∈ (projectList f d pts).2.2, o < 0 := by
  refine ⟨by simp [projectList, project, div_eq_mul_inv],
    by simp [projectList, project, div_eq_mul_inv],
    by simp [projectList, project, one_div],
    by simp [projectList], by simp [projectList], by simp [projectList], ?_⟩
  intro o ho
  simp only [projectList, List.mem_map] at ho
  obtain ⟨p, hp, rfl⟩ := ho
  have h1 : p.y < f :=
    lt_of_le_of_lt (le_trans (le_abs_self p.y) (hb p hp)) (lt_trans hd hf)
  show (p.y - f)⁻¹ < 0
  exact inv_lt_zero.mpr (sub_neg.mpr h1)

/-- Claim C4 witness: the `invDepth` entry `-1/10` of the singleton point
`(0, 0, 3)` under `f = 10, d = 5, R1 = 1, R2 = 2` is negative, via the
projection theorem. -/
theorem project_formulas_witness :
    ((-1 : ℚ) / 10) ∈ (projectList (10 : ℚ) 5 [⟨0, 0, 3⟩]).2.2 ∧
    ((-1 : ℚ) / 10) < 0 :=
  ⟨by with_unfolding_all decide,
   (project_formulas (10 : ℚ) 5 1 2 [⟨0, 0, 3⟩] (by with_unfolding_all decide)
      (by norm_num) (by norm_num) (by norm_num)).2.2.2.2.2.2 _
      (by with_unfolding_all decide)⟩

/-- Claim C5: `Stage` construction succeeds if and only if
`f > d > R1 + R2 > 0`, and on success it stores the given configuration
and a blank `num_pixels × num_pixels` screen (every cell is `' '`). -/
theorem stage_init_iff {α : Type} [LinearOrderedField α]
    (dona : Donut α) (light : Vec3 α) (f d : α) (np : ℕ) :
    ((Stage.init dona light f d np).isSome = true ↔
      (f > d ∧ d > dona.R1 + dona.R2 ∧ dona.R1 + dona.R2 > 0)) ∧
    ∀ s : Stage α, Stage.init dona light f d np = some s →
      s.num_pixels = np ∧ (∀ i j : ℤ, s.screen i j = ' ') ∧
      s.dona = dona ∧ s.light = light ∧ s.f = f ∧ s.d = d := by
  rw [Stage.init]
  split_ifs with h
  · refine ⟨by simp [h], ?_⟩
    intro s hs
    obtain rfl : (⟨dona, light, f, d, np, blankScreen⟩ : Stage α) = s :=
      Option.some.inj hs
    exact ⟨rfl, fun i j => rfl, rfl, rfl, rfl, rfl⟩
  · refine ⟨by simp [h], ?_⟩
    intro s hs
    exact absurd hs (by simp)

/-- Claim C5 witness: the end-to-end configuration `R1 = 1, R2 = 2, f = 10,
d = 5` is accepted with a blank screen, and the invariant-violation
configuration `R1 = 3, R2 = 3, f = 5, d = 4` is rejected. -/
theorem stage_init_iff_witness :
    (Stage.init (⟨1, 2, [], []⟩ : Donut ℚ) ⟨0, -1, -1⟩ 10 5 8).isSome = true ∧
    (⟨⟨1, 2, [], []⟩, ⟨0, -1, -1⟩, 10, 5, 8, blankScreen⟩ : Stage ℚ).screen 0 0 = ' ' ∧
    (Stage.init (⟨3, 3, [], []⟩ : Donut ℚ) ⟨0, -1, -1⟩ 5 4 8).isSome = false :=
  ⟨(stage_init_iff _ _ _ _ _).1.mpr ⟨by norm_num, by norm_num, by norm_num⟩,
   ((stage_init_iff (⟨1, 2, [], []⟩ : Donut ℚ) ⟨0, -1, -1⟩ 10 5 8).2 _
      (by with_unfolding_all rfl)).2.1 0 0,
   by simpa using
     mt (stage_init_iff (⟨3, 3, [], []⟩ : Donut ℚ) ⟨0, -1, -1⟩ 5 4 8).1.mp
       (by norm_num)⟩

/-- Claim C8: every surface normal has squared norm 1 (hence magnitude 1)
as constructed, and still after any finite sequence of `rotate_x` /
`rotate_y` calls, since the rotation matrices preserve vector norms. -/
theorem normal_unit_length (θ φ : ℝ) (cs : List RotCall) :
    norm2 (applyCalls cs (torusNormal θ φ)) = 1 ∧
    Real.sqrt (norm2 (applyCalls cs (torusNormal θ φ))) = 1 := by
  have h : norm2 (applyCalls cs (torusNormal θ φ)) = 1 := by
    rw [norm2_applyCalls, norm2_torusNormal]
  exact ⟨h, by rw [h, Real.sqrt_one]⟩

/-- Claim C9: for all angles `a`, `b` and every vector (point or normal),
`rotate_x a` followed by `rotate_y b` equals multiplication by the
combined matrix `Ry(b) · Rx(a)`. -/
theorem rotation_composition (a b : ℝ) (v : Vec3 ℝ) :
    rotate_y b (rotate_x a v) = matVec (matMul (rotYMat b) (rotXMat a)) v := by
  ext <;> simp [rotate_x, rotate_y, matVec, matMul, rotXMat, rotYMat] <;> ring

/-- Claim C10: the `project` and `luminance` methods mutate no state — the
post-state (points, normals, screen, all configuration) equals the
pre-state — and their results are pure functions of the state. -/
theorem project_luminance_pure {α : Type} [LinearOrderedField α] (s : Stage α) :
    (Stage.projectM s).2 = s ∧ (Stage.luminanceM s).2 = s ∧
    (Stage.projectM s).2.dona.points = s.dona.points ∧
    (Stage.projectM s).2.dona.normals = s.dona.normals ∧
    (Stage.projectM s).2.screen = s.screen ∧
    (Stage.luminanceM s).2.dona.points = s.dona.points ∧
    (Stage.luminanceM s).2.dona.normals = s.dona.normals ∧
    (Stage.luminanceM s).2.screen = s.screen ∧
    (Stage.projectM s).1 = projectList s.f s.d s.dona.points ∧
    (Stage.luminanceM s).1 = s.dona.normals.map (luminance s.light) :=
  ⟨rfl, rfl, rfl, rfl, rfl, rfl, rfl, rfl, rfl, rfl⟩

end DonutPy
